import Mathlib

/-!
Verification of the Speed-share-mobile transfer utilities.

Byte buffers (JS `Uint8Array`) are modeled as `List Nat`; JS numbers that only
ever hold non-negative integers are modeled as `Nat`.  Typed-array views are
little-endian, matching every platform the app targets.
-/

namespace SpeedShare

/-! ### Dual-buffer frame codec (src/src/utils/concatBytes.ts)

`concatUint8Arrays` writes `new Uint16Array([array1.length])` into the first
two bytes: the stored value is `array1.length mod 2^16`, little-endian. -/

def concatUint8Arrays (array1 array2 : List Nat) : List Nat :=
  array1.length % 256 :: array1.length / 256 % 256 :: (array1 ++ array2)

/-- Model of `splitUint8Array`: reads the 2-byte little-endian split index,
then `subarray(2, 2 + splitIndex)` and `subarray(2 + splitIndex)`.  JS
`subarray` clamps its bounds to the available length, which `List.take` /
`List.drop` do natively; no code path throws. -/
def splitUint8Array (combinedArray : List Nat) : List Nat × List Nat :=
  let splitIndex := combinedArray.getD 0 0 + 256 * combinedArray.getD 1 0
  let rest := combinedArray.drop 2
  (rest.take splitIndex, rest.drop splitIndex)

/-! ### Chunk splitting (src/src/utils/concatBytes.ts)

The `while (offset < data.byteLength)` loop of `createOptimizedChunks` (also
the chunking loop inside `encryptAesGcmOptimized`), stepping by `step`.
The source loop does not terminate for `step = 0`; the guard returns `[]`
in that dead case so the Lean function is total. -/

def chunksOf (step : Nat) (data : List Nat) : List (List Nat) :=
  if _h : step = 0 ∨ data = [] then []
  else data.take step :: chunksOf step (data.drop step)
termination_by data.length
decreasing_by
  push_neg at _h
  have hpos : 0 < data.length := List.length_pos.mpr _h.2
  simp only [List.length_drop]
  omega

def createOptimizedChunks (data : List Nat) (chunkSize : Nat) : List (List Nat) :=
  chunksOf (max chunkSize 16777216) data

theorem chunksOf_join (step : Nat) (data : List Nat) (hs : 0 < step) :
    (chunksOf step data).flatten = data := by
  induction data using chunksOf.induct step with
  | case1 data h =>
    rcases h with h | h
    · omega
    · subst h; rw [chunksOf]; simp
  | case2 data h ih =>
    rw [chunksOf, dif_neg h, List.flatten]
    rw [ih, List.take_append_drop]

theorem chunksOf_length_le (step : Nat) (data : List Nat) :
    ∀ c ∈ chunksOf step data, c.length ≤ step := by
  induction data using chunksOf.induct step with
  | case1 data h => rw [chunksOf, dif_pos h]; intro c hc; simp at hc
  | case2 data h ih =>
    rw [chunksOf, dif_neg h]
    intro c hc
    rcases List.mem_cons.mp hc with rfl | hc
    · simp
    · exact ih c hc

/-! ### Chunk-size tiers (src/src/utils/uniqueCode.ts) -/

def calculateOptimalChunkSize (fileSize : Nat) : Nat :=
  if fileSize > 10 * 1024 * 1024 * 1024 then 134217728
  else if fileSize > 1024 * 1024 * 1024 then 67108864
  else if fileSize > 100 * 1024 * 1024 then 16777216
  else 4194304

/-! ### File-metadata validation (src/src/App.tsx bundle, validateFileMetadata)

The source returns `new Error(...)` exactly when `maxSize && metadata.size >
maxSize` is truthy; a `maxSize` of `0` (or `undefined`) is falsy in JS, so no
error is produced then.  The model returns the offending limit in place of
the message string. -/

structure MetaData where
  name : List Nat
  size : Nat
deriving DecidableEq

def validateFileMetadata (metadata : MetaData) (maxSize : Option Nat) : Option Nat :=
  match maxSize with
  | none => none
  | some n => if n ≠ 0 ∧ metadata.size > n then some n else none

/-! ### Order-preserving batch processing (src/src/utils/concatBytes.ts)

`processChunksParallel` admits up to `concurrency` chunks per batch, awaits
the whole batch (`Promise.all` keeps order) and appends the batch results in
input order.  The async processor is modeled as a pure function; the source
recursion does not terminate for `concurrency = 0`, which the guard turns
into `[]` (claims only concern `concurrency ≥ 1`). -/

def processChunksParallel {β : Type} (chunks : List (List Nat))
    (processor : List Nat → β) (concurrency : Nat) : List β :=
  if _h : concurrency = 0 ∨ chunks = [] then []
  else (chunks.take concurrency).map processor ++
    processChunksParallel (chunks.drop concurrency) processor concurrency
termination_by chunks.length
decreasing_by
  push_neg at _h
  have hpos : 0 < chunks.length := List.length_pos.mpr _h.2
  simp only [List.length_drop]
  omega

theorem processChunksParallel_eq_map {β : Type} (chunks : List (List Nat))
    (processor : List Nat → β) (concurrency : Nat) (hc : 1 ≤ concurrency) :
    processChunksParallel chunks processor concurrency = chunks.map processor := by
  revert hc
  induction chunks, processor, concurrency using processChunksParallel.induct with
  | case1 chunks processor concurrency h =>
    intro hc
    rcases h with h | h
    · omega
    · subst h; rw [processChunksParallel]; simp
  | case2 chunks processor concurrency h ih =>
    intro hc
    rw [processChunksParallel, dif_neg h, ih hc, ← List.map_append,
      List.take_append_drop]

/-! ### AES-GCM cipher envelope (src/src/utils/crypto.ts)

`crypto.subtle.encrypt`/`decrypt` for AES-GCM are platform primitives, so they
are modeled by an executable cipher that keeps the structure every AES-GCM
implementation shares: the ciphertext is a length-preserving keystream
encryption of the plaintext followed by a 16-byte authentication tag computed
over key, IV and ciphertext body, and decryption verifies the tag before
inverting the keystream (returning an error on mismatch).  The keystream
counter restarts at 0 for every `subtle.encrypt` call, exactly as GCM restarts
its counter per message — which is what makes the source's same-IV chunked
encryption collide with its single-message decryption. -/

def ivVal (iv : List Nat) : Nat := iv.foldl (fun a b => a * 256 + b) 0

def keyStream (key : Nat) (iv : List Nat) (i : Nat) : Nat :=
  (key * 131 + ivVal iv * 31 + i * 17 + 7) % 256

def xorKs (key : Nat) (iv : List Nat) : Nat → List Nat → List Nat
  | _, [] => []
  | i, b :: bs => (b ^^^ keyStream key iv i) :: xorKs key iv (i + 1) bs

def gcmTag (key : Nat) (iv : List Nat) (ct : List Nat) : List Nat :=
  let h0 := ct.foldl (fun a b => (a * 257 + b + 1) % 65521)
    (key * 131 + ivVal iv + ct.length)
  (List.range 16).map fun i => (h0 + i * 31 + key) % 256

def aesGcmEncrypt (key : Nat) (iv : List Nat) (msg : List Nat) : List Nat :=
  let body := xorKs key iv 0 msg
  body ++ gcmTag key iv body

def aesGcmDecrypt (key : Nat) (iv : List Nat) (ct : List Nat) : Option (List Nat) :=
  if ct.length < 16 then none
  else
    let body := ct.take (ct.length - 16)
    let tag := ct.drop (ct.length - 16)
    if tag = gcmTag key iv body then some (xorKs key iv 0 body) else none

/-- Model of `encryptAesGcmOptimized`: a fresh 12-byte IV (passed explicitly
here, the source draws it from `crypto.getRandomValues`) is prepended; when
`message.byteLength > chunkSize` each `chunkSize` sub-range is encrypted as an
independent AES-GCM message under the shared IV and the ciphertexts (each
carrying its own 16-byte tag) are concatenated after the IV. -/
def encryptAesGcmOptimized (key : Nat) (iv : List Nat) (message : List Nat)
    (chunkSize : Nat) : List Nat :=
  if chunkSize < message.length then
    iv ++ ((chunksOf chunkSize message).map (aesGcmEncrypt key iv)).flatten
  else
    iv ++ aesGcmEncrypt key iv message

set_option linter.unusedVariables false in
/-- Model of `decryptAesGcmOptimized`: the first 12 bytes are the IV and the
remainder is decrypted as one single AES-GCM message — the source's two
branches around `chunkSize` perform the identical single
`crypto.subtle.decrypt` call, so the parameter is unused. -/
def decryptAesGcmOptimized (key : Nat) (encryptedData : List Nat)
    (chunkSize : Nat) : Option (List Nat) :=
  let iv := encryptedData.take 12
  let encryptedMessage := encryptedData.drop 12
  aesGcmDecrypt key iv encryptedMessage

theorem xorKs_length (key : Nat) (iv : List Nat) :
    ∀ i msg, (xorKs key iv i msg).length = msg.length := by
  intro i msg
  induction msg generalizing i with
  | nil => rfl
  | cons b bs ih => simp [xorKs, ih]

theorem xorKs_involutive (key : Nat) (iv : List Nat) :
    ∀ i msg, xorKs key iv i (xorKs key iv i msg) = msg := by
  intro i msg
  induction msg generalizing i with
  | nil => rfl
  | cons b bs ih =>
    simp only [xorKs, ih, List.cons.injEq, and_true]
    rw [Nat.xor_assoc, Nat.xor_self, Nat.xor_zero]

/-- Within the chunking threshold the envelope round-trips: this is the
correct-path counterpart of the large-input failure recorded for the cipher
round-trip claim. -/
theorem decrypt_encrypt_within_threshold (key : Nat) (iv msg : List Nat)
    (chunkSize : Nat) (hiv : iv.length = 12) (hlen : msg.length ≤ chunkSize) :
    decryptAesGcmOptimized key (encryptAesGcmOptimized key iv msg chunkSize)
      chunkSize = some msg := by
  rw [encryptAesGcmOptimized, if_neg (by omega)]
  rw [decryptAesGcmOptimized]
  rw [show (12 : Nat) = iv.length from hiv.symm]
  rw [List.take_left, List.drop_left]
  rw [aesGcmEncrypt, aesGcmDecrypt]
  have hbl : (xorKs key iv 0 msg).length = msg.length := xorKs_length key iv 0 msg
  have htag : (gcmTag key iv (xorKs key iv 0 msg)).length = 16 := by
    simp [gcmTag]
  rw [if_neg (by simp [List.length_append, hbl, htag])]
  have hcut : (xorKs key iv 0 msg ++ gcmTag key iv (xorKs key iv 0 msg)).length - 16
      = (xorKs key iv 0 msg).length := by
    simp [List.length_append, hbl, htag]
  rw [hcut, List.take_left, List.drop_left, if_pos rfl, xorKs_involutive]

/-! ### Progress reporting (src/src/utils/concatBytes.ts bundle,
progressiveFileTransfer)

The model records the sequence of percentages passed to `onProgress`.  The
source computes `Math.floor((offset / fileSize) * 100)` in exact double
arithmetic for every realistic size, modeled as `offset * 100 / fileSize` in
`Nat`.  A `chunkSize` of `0` makes the source loop forever; the guard returns
`[]` in that dead case (claims are stated for positive chunk sizes). -/

def progressReports (fileSize chunkSize offset lastReported : Nat) : List Nat :=
  if _h : chunkSize = 0 ∨ fileSize ≤ offset then []
  else
    if lastReported + 1 ≤ min (offset + chunkSize) fileSize * 100 / fileSize
        ∨ min (offset + chunkSize) fileSize = fileSize then
      min (offset + chunkSize) fileSize * 100 / fileSize ::
        progressReports fileSize chunkSize (min (offset + chunkSize) fileSize)
          (min (offset + chunkSize) fileSize * 100 / fileSize)
    else
      progressReports fileSize chunkSize (min (offset + chunkSize) fileSize)
        lastReported
termination_by fileSize - offset
decreasing_by
  all_goals
    push_neg at _h
    omega

/-- The percentages reported to `onProgress` over a whole transfer. -/
def progressiveFileTransfer (fileSize chunkSize : Nat) : List Nat :=
  progressReports fileSize chunkSize 0 0

theorem progressReports_stop (fileSize chunkSize offset lastReported : Nat)
    (h : fileSize ≤ offset) :
    progressReports fileSize chunkSize offset lastReported = [] := by
  rw [progressReports, dif_pos (Or.inr h)]

theorem progressReports_props (fileSize chunkSize : Nat) (hcs : 0 < chunkSize) :
    ∀ offset lastReported, lastReported < 100 →
      (∀ x ∈ progressReports fileSize chunkSize offset lastReported,
        lastReported < x ∧ x ≤ 100) ∧
      (progressReports fileSize chunkSize offset lastReported).Chain' (· < ·) ∧
      (offset < fileSize →
        (progressReports fileSize chunkSize offset lastReported).getLast?
          = some 100) := by
  intro offset lastReported
  induction offset, lastReported using progressReports.induct fileSize chunkSize with
  | case1 offset lastReported h =>
    intro _hlr
    rw [progressReports, dif_pos h]
    refine ⟨by simp, by simp, ?_⟩
    intro hof
    rcases h with h | h
    · omega
    · omega
  | case2 offset lastReported h hrep ih =>
    intro hlr
    have hfs : offset < fileSize := by push_neg at h; exact h.2
    have hfs0 : 0 < fileSize := by omega
    rw [progressReports, dif_neg h, if_pos hrep]
    set e := min (offset + chunkSize) fileSize with he
    set cur := e * 100 / fileSize with hc
    have hele : e ≤ fileSize := by rw [he]; exact min_le_right _ _
    by_cases hend : e = fileSize
    · have hcur : cur = 100 := by
        rw [hc, hend]
        exact Nat.mul_div_cancel_left 100 hfs0
      have hrest : progressReports fileSize chunkSize e cur = [] :=
        progressReports_stop _ _ _ _ (by omega)
      rw [hrest]
      refine ⟨?_, by simp, ?_⟩
      · intro x hx
        have hx' : x = cur := List.mem_singleton.mp hx
        omega
      · intro _
        rw [show ([cur] : List Nat).getLast? = some cur from rfl, hcur]
    · have helt : e < fileSize := by omega
      have hcur100 : cur < 100 := by
        rw [hc, Nat.div_lt_iff_lt_mul hfs0]
        omega
      have hcurlr : lastReported + 1 ≤ cur := by
        rcases hrep with h1 | h1
        · exact h1
        · omega
      obtain ⟨ihall, ihchain, ihlast⟩ := ih hcur100
      have hlast := ihlast helt
      have hne : progressReports fileSize chunkSize e cur ≠ [] := by
        intro hnil; rw [hnil] at hlast; simp at hlast
      refine ⟨?_, ?_, ?_⟩
      · intro x hx
        rcases List.mem_cons.mp hx with rfl | hx
        · omega
        · have := ihall x hx; omega
      · rw [List.chain'_cons']
        refine ⟨?_, ihchain⟩
        intro y hy
        have hymem : y ∈ progressReports fileSize chunkSize e cur :=
          List.mem_of_mem_head? hy
        exact (ihall y hymem).1
      · intro _
        rw [List.getLast?_cons, hlast]
        simp
  | case3 offset lastReported h hrep ih =>
    intro hlr
    have hfs : offset < fileSize := by push_neg at h; exact h.2
    rw [progressReports, dif_neg h, if_neg hrep]
    set e := min (offset + chunkSize) fileSize with he
    have hele : e ≤ fileSize := by rw [he]; exact min_le_right _ _
    have helt : e < fileSize := by
      push_neg at hrep
      omega
    obtain ⟨ihall, ihchain, ihlast⟩ := ih hlr
    exact ⟨ihall, ihchain, fun _ => ihlast helt⟩

/-! ### base64url codec (src/src/utils/base64.ts)

JS strings are modeled as lists of code units.  `btoa`/`atob` are platform
primitives, modeled concretely: `btoa` fails (`InvalidCharacterError`) when a
code unit exceeds 255, and `atob` fails on characters outside the base64
alphabet or a malformed length, decoding otherwise. -/

def b64Alphabet : List Nat :=
  (List.range 26).map (fun i => i + 65) ++ (List.range 26).map (fun i => i + 97)
    ++ (List.range 10).map (fun i => i + 48) ++ [43, 47]

def b64chr (n : Nat) : Nat := b64Alphabet.getD n 0

def b64idx (c : Nat) : Option Nat :=
  if b64Alphabet.indexOf c < 64 then some (b64Alphabet.indexOf c) else none

def btoaGo : List Nat → List Nat
  | [] => []
  | [a] => [b64chr (a / 4), b64chr (a % 4 * 16), 61, 61]
  | [a, b] => [b64chr (a / 4), b64chr (a % 4 * 16 + b / 16), b64chr (b % 16 * 4), 61]
  | a :: b :: c :: rest =>
    b64chr (a / 4) :: b64chr (a % 4 * 16 + b / 16) :: b64chr (b % 16 * 4 + c / 64)
      :: b64chr (c % 64) :: btoaGo rest

def btoa (s : List Nat) : Option (List Nat) :=
  if s.all (fun c => c < 256) then some (btoaGo s) else none

def dec1 (c0 c1 : Nat) : Option (List Nat) :=
  match b64idx c0, b64idx c1 with
  | some s0, some s1 => some [s0 * 4 + s1 / 16]
  | _, _ => none

def dec2 (c0 c1 c2 : Nat) : Option (List Nat) :=
  match b64idx c0, b64idx c1, b64idx c2 with
  | some s0, some s1, some s2 => some [s0 * 4 + s1 / 16, s1 % 16 * 16 + s2 / 4]
  | _, _, _ => none

def dec3 (c0 c1 c2 c3 : Nat) : Option (List Nat) :=
  match b64idx c0, b64idx c1, b64idx c2, b64idx c3 with
  | some s0, some s1, some s2, some s3 =>
    some [s0 * 4 + s1 / 16, s1 % 16 * 16 + s2 / 4, s2 % 4 * 64 + s3]
  | _, _, _, _ => none

def atobFinal (g : List Nat) : Option (List Nat) :=
  match g with
  | [c0, c1] => dec1 c0 c1
  | [c0, c1, c2] => dec2 c0 c1 c2
  | [c0, c1, c2, c3] =>
    if c2 = 61 then (if c3 = 61 then dec1 c0 c1 else none)
    else if c3 = 61 then dec2 c0 c1 c2
    else dec3 c0 c1 c2 c3
  | _ => none

def atobGo : List Nat → Option (List Nat)
  | c0 :: c1 :: c2 :: c3 :: rest =>
    if rest = [] then atobFinal [c0, c1, c2, c3]
    else
      match dec3 c0 c1 c2 c3, atobGo rest with
      | some bs, some tl => some (bs ++ tl)
      | _, _ => none
  | [] => some []
  | g => atobFinal g

def atob : List Nat → Option (List Nat) := atobGo

def urlRepl (c : Nat) : Nat := if c = 43 then 45 else if c = 47 then 95 else c

def urlBack (c : Nat) : Nat := if c = 45 then 43 else if c = 95 then 47 else c

def stripTrailingEq (l : List Nat) : List Nat :=
  (l.reverse.dropWhile (fun c => c == 61)).reverse

/-- Closed form of the source's `while (base64.length % 4) base64 += '='`. -/
def padTo4 (l : List Nat) : List Nat :=
  l ++ List.replicate ((4 - l.length % 4) % 4) 61

def base64urlEncode (s : List Nat) : Option (List Nat) :=
  (btoa s).map fun t => stripTrailingEq (t.map urlRepl)

def base64urlDecode (u : List Nat) : Option (List Nat) :=
  atob (padTo4 (u.map urlBack))

theorem b64chr_spec : ∀ n < 64, b64idx (b64chr n) = some n ∧ b64chr n ≠ 61 ∧
    urlBack (urlRepl (b64chr n)) = b64chr n ∧ b64chr n < 256 := by decide

theorem atobGo_btoaGo (s : List Nat) (h : ∀ c ∈ s, c < 256) :
    atobGo (btoaGo s) = some s := by
  induction s using btoaGo.induct with
  | case1 => rfl
  | case2 a =>
    have ha : a < 256 := h a (by simp)
    obtain ⟨h0, h0ne, -, -⟩ := b64chr_spec (a / 4) (by omega)
    obtain ⟨h1, h1ne, -, -⟩ := b64chr_spec (a % 4 * 16) (by omega)
    rw [btoaGo, atobGo, if_pos rfl, atobFinal]
    rw [if_pos rfl, if_pos rfl, dec1, h0, h1]
    show some [a / 4 * 4 + a % 4 * 16 / 16] = some [a]
    have : a / 4 * 4 + a % 4 * 16 / 16 = a := by omega
    rw [this]
  | case3 a b =>
    have ha : a < 256 := h a (by simp)
    have hb : b < 256 := h b (by simp)
    obtain ⟨h0, h0ne, -, -⟩ := b64chr_spec (a / 4) (by omega)
    obtain ⟨h1, h1ne, -, -⟩ := b64chr_spec (a % 4 * 16 + b / 16) (by omega)
    obtain ⟨h2, h2ne, -, -⟩ := b64chr_spec (b % 16 * 4) (by omega)
    rw [btoaGo, atobGo, if_pos rfl, atobFinal]
    rw [if_neg h2ne, if_pos rfl, dec2, h0, h1, h2]
    show some [a / 4 * 4 + (a % 4 * 16 + b / 16) / 16,
      (a % 4 * 16 + b / 16) % 16 * 16 + b % 16 * 4 / 4] = some [a, b]
    have e1 : a / 4 * 4 + (a % 4 * 16 + b / 16) / 16 = a := by omega
    have e2 : (a % 4 * 16 + b / 16) % 16 * 16 + b % 16 * 4 / 4 = b := by omega
    rw [e1, e2]
  | case4 a b c rest ih =>
    have ha : a < 256 := h a (by simp)
    have hb : b < 256 := h b (by simp)
    have hc : c < 256 := h c (by simp)
    have hrest : ∀ x ∈ rest, x < 256 := fun x hx => h x (by simp [hx])
    obtain ⟨h0, h0ne, -, -⟩ := b64chr_spec (a / 4) (by omega)
    obtain ⟨h1, h1ne, -, -⟩ := b64chr_spec (a % 4 * 16 + b / 16) (by omega)
    obtain ⟨h2, h2ne, -, -⟩ := b64chr_spec (b % 16 * 4 + c / 64) (by omega)
    obtain ⟨h3, h3ne, -, -⟩ := b64chr_spec (c % 64) (by omega)
    have e1 : a / 4 * 4 + (a % 4 * 16 + b / 16) / 16 = a := by omega
    have e2 : (a % 4 * 16 + b / 16) % 16 * 16 + (b % 16 * 4 + c / 64) / 4 = b := by
      omega
    have e3 : (b % 16 * 4 + c / 64) % 4 * 64 + c % 64 = c := by omega
    rw [btoaGo, atobGo]
    by_cases hnil : rest = []
    · subst hnil
      have hb0 : btoaGo [] = [] := by simp [btoaGo]
      rw [hb0, if_pos rfl, atobFinal, if_neg h2ne, if_neg h3ne, dec3, h0, h1, h2, h3]
      show some [a / 4 * 4 + (a % 4 * 16 + b / 16) / 16,
        (a % 4 * 16 + b / 16) % 16 * 16 + (b % 16 * 4 + c / 64) / 4,
        (b % 16 * 4 + c / 64) % 4 * 64 + c % 64] = some [a, b, c]
      rw [e1, e2, e3]
    · have hbne : btoaGo rest ≠ [] := by
        cases rest with
        | nil => contradiction
        | cons x t =>
          cases t with
          | nil => simp [btoaGo]
          | cons y t2 =>
            cases t2 with
            | nil => simp [btoaGo]
            | cons z t3 => simp [btoaGo]
      rw [if_neg hbne, dec3, h0, h1, h2, h3, ih hrest]
      show some ([a / 4 * 4 + (a % 4 * 16 + b / 16) / 16,
        (a % 4 * 16 + b / 16) % 16 * 16 + (b % 16 * 4 + c / 64) / 4,
        (b % 16 * 4 + c / 64) % 4 * 64 + c % 64] ++ rest)
        = some (a :: b :: c :: rest)
      rw [e1, e2, e3]
      rfl

theorem btoaGo_struct (s : List Nat) (h : ∀ c ∈ s, c < 256) :
    ∃ body k, btoaGo s = body ++ List.replicate k 61 ∧ k < 3 ∧
      (body.length + k) % 4 = 0 ∧
      ∀ c ∈ body, ∃ n < 64, c = b64chr n := by
  induction s using btoaGo.induct with
  | case1 => exact ⟨[], 0, by simp [btoaGo], by omega, by simp, by simp⟩
  | case2 a =>
    have ha : a < 256 := h a (by simp)
    refine ⟨[b64chr (a / 4), b64chr (a % 4 * 16)], 2, by simp [btoaGo], by omega,
      by simp, ?_⟩
    intro c hc
    rcases List.mem_cons.mp hc with rfl | hc
    · exact ⟨a / 4, by omega, rfl⟩
    · rcases List.mem_singleton.mp hc with rfl
      exact ⟨a % 4 * 16, by omega, rfl⟩
  | case3 a b =>
    have ha : a < 256 := h a (by simp)
    have hb : b < 256 := h b (by simp)
    refine ⟨[b64chr (a / 4), b64chr (a % 4 * 16 + b / 16), b64chr (b % 16 * 4)], 1,
      by simp [btoaGo], by omega, by simp, ?_⟩
    intro c hc
    rcases List.mem_cons.mp hc with rfl | hc
    · exact ⟨a / 4, by omega, rfl⟩
    rcases List.mem_cons.mp hc with rfl | hc
    · exact ⟨a % 4 * 16 + b / 16, by omega, rfl⟩
    rcases List.mem_singleton.mp hc with rfl
    exact ⟨b % 16 * 4, by omega, rfl⟩
  | case4 a b c rest ih =>
    have ha : a < 256 := h a (by simp)
    have hb : b < 256 := h b (by simp)
    have hc : c < 256 := h c (by simp)
    have hrest : ∀ x ∈ rest, x < 256 := fun x hx => h x (by simp [hx])
    obtain ⟨body, k, heq, hk, hmod, hmem⟩ := ih hrest
    refine ⟨b64chr (a / 4) :: b64chr (a % 4 * 16 + b / 16)
      :: b64chr (b % 16 * 4 + c / 64) :: b64chr (c % 64) :: body, k, ?_, hk, ?_, ?_⟩
    · rw [btoaGo, heq]
      simp
    · simp only [List.length_cons]
      omega
    · intro x hx
      rcases List.mem_cons.mp hx with rfl | hx
      · exact ⟨a / 4, by omega, rfl⟩
      rcases List.mem_cons.mp hx with rfl | hx
      · exact ⟨a % 4 * 16 + b / 16, by omega, rfl⟩
      rcases List.mem_cons.mp hx with rfl | hx
      · exact ⟨b % 16 * 4 + c / 64, by omega, rfl⟩
      rcases List.mem_cons.mp hx with rfl | hx
      · exact ⟨c % 64, by omega, rfl⟩
      exact hmem x hx

theorem dropWhile_eq61_replicate_append (k : Nat) (y : List Nat) :
    List.dropWhile (fun c => c == 61) (List.replicate k 61 ++ y)
      = List.dropWhile (fun c => c == 61) y := by
  induction k with
  | zero => simp
  | succ n ih => simp [List.replicate_succ, List.dropWhile_cons, ih]

theorem dropWhile_eq61_of_ne (y : List Nat) (h : ∀ c ∈ y, c ≠ 61) :
    List.dropWhile (fun c => c == 61) y = y := by
  cases y with
  | nil => rfl
  | cons a t =>
    rw [List.dropWhile_cons, if_neg]
    simp only [beq_iff_eq]
    exact fun hc => h a (by simp) (by simpa using hc)

theorem stripTrailingEq_spec (x : List Nat) (k : Nat) (h : ∀ c ∈ x, c ≠ 61) :
    stripTrailingEq (x ++ List.replicate k 61) = x := by
  rw [stripTrailingEq, List.reverse_append, List.reverse_replicate,
    dropWhile_eq61_replicate_append, dropWhile_eq61_of_ne, List.reverse_reverse]
  intro c hc
  exact h c (by simpa using hc)

theorem base64url_roundtrip (s e : List Nat) (h : ∀ c ∈ s, c < 256)
    (he : base64urlEncode s = some e) : base64urlDecode e = some s := by
  rw [base64urlEncode, btoa, if_pos (by simpa [List.all_eq_true, decide_eq_true_iff] using h),
    Option.map_some'] at he
  obtain ⟨body, k, heq, hk, hmod, hmem⟩ := btoaGo_struct s h
  have hbody61 : ∀ c ∈ body, c ≠ 61 := by
    intro c hc
    obtain ⟨n, hn, rfl⟩ := hmem c hc
    exact (b64chr_spec n hn).2.1
  have hmapped : (btoaGo s).map urlRepl
      = body.map urlRepl ++ List.replicate k 61 := by
    rw [heq, List.map_append, List.map_replicate]
    rfl
  have hrepl61 : ∀ c ∈ body.map urlRepl, c ≠ 61 := by
    intro c hc
    obtain ⟨x, hx, rfl⟩ := List.mem_map.mp hc
    have hx61 := hbody61 x hx
    rw [urlRepl]
    split_ifs <;> omega
  have hstrip : stripTrailingEq ((btoaGo s).map urlRepl) = body.map urlRepl := by
    rw [hmapped, stripTrailingEq_spec _ _ hrepl61]
  have he2 : body.map urlRepl = e := by rw [← hstrip]; exact Option.some.inj he
  subst he2
  rw [base64urlDecode, List.map_map]
  have hback : body.map (urlBack ∘ urlRepl) = body := by
    rw [show body.map (urlBack ∘ urlRepl) = body.map id from
      List.map_congr_left ?_, List.map_id]
    intro x hx
    obtain ⟨n, hn, rfl⟩ := hmem x hx
    exact (b64chr_spec n hn).2.2.1
  rw [hback, padTo4]
  have hlen : (4 - body.length % 4) % 4 = k := by omega
  rw [hlen, ← heq, atob]
  exact atobGo_btoaGo s h

/-! ### JSON fragment (platform `JSON.stringify` / `JSON.parse`)

`generateUniqueCode` serializes the fixed object `{s, i, c, p, h}` whose five
values are strings; `parseUniqueCode` parses it back.  The platform
serializer is modeled precisely for that shape: `escapeChar` reproduces
`JSON.stringify`'s string escaping (quote, backslash, the control-character
shortcuts, `\u00xx` with lowercase hex for the rest), and `jsonParseCode`
is a parser for the serialized object form. -/

def hexDigit (n : Nat) : Nat := if n < 10 then 48 + n else 87 + n

def escapeChar (c : Nat) : List Nat :=
  if c = 34 then [92, 34]
  else if c = 92 then [92, 92]
  else if c = 8 then [92, 98]
  else if c = 9 then [92, 116]
  else if c = 10 then [92, 110]
  else if c = 12 then [92, 102]
  else if c = 13 then [92, 114]
  else if c < 32 then [92, 117, 48, 48, hexDigit (c / 16), hexDigit (c % 16)]
  else [c]

def escapeStr (s : List Nat) : List Nat := s.flatMap escapeChar

structure CodeData where
  s : List Nat
  i : List Nat
  c : List Nat
  p : List Nat
  h : List Nat
deriving DecidableEq

/-- Code units of `JSON.stringify({s: .., i: .., c: .., p: .., h: ..})` with
the five string values escaped, in the key order the source object literal
fixes. -/
def jsonStringifyCode (d : CodeData) : List Nat :=
  123 :: 34 :: 115 :: 34 :: 58 :: 34 ::
    (escapeStr d.s ++ 34 :: 44 :: 34 :: 105 :: 34 :: 58 :: 34 ::
    (escapeStr d.i ++ 34 :: 44 :: 34 :: 99 :: 34 :: 58 :: 34 ::
    (escapeStr d.c ++ 34 :: 44 :: 34 :: 112 :: 34 :: 58 :: 34 ::
    (escapeStr d.p ++ 34 :: 44 :: 34 :: 104 :: 34 :: 58 :: 34 ::
    (escapeStr d.h ++ [34, 125])))))

def hexVal (c : Nat) : Option Nat :=
  if 48 ≤ c ∧ c ≤ 57 then some (c - 48)
  else if 97 ≤ c ∧ c ≤ 102 then some (c - 87)
  else if 65 ≤ c ∧ c ≤ 70 then some (c - 55)
  else none

/-- Parses a JSON string body (after the opening quote) up to the closing
quote, returning the decoded string and the remaining input. -/
def parseStrBody : List Nat → Option (List Nat × List Nat)
  | [] => none
  | c :: rest =>
    if c = 34 then some ([], rest)
    else if c = 92 then
      match rest with
      | [] => none
      | e :: rest2 =>
        if e = 34 then (parseStrBody rest2).map (fun pr => (34 :: pr.1, pr.2))
        else if e = 92 then (parseStrBody rest2).map (fun pr => (92 :: pr.1, pr.2))
        else if e = 98 then (parseStrBody rest2).map (fun pr => (8 :: pr.1, pr.2))
        else if e = 116 then (parseStrBody rest2).map (fun pr => (9 :: pr.1, pr.2))
        else if e = 110 then (parseStrBody rest2).map (fun pr => (10 :: pr.1, pr.2))
        else if e = 102 then (parseStrBody rest2).map (fun pr => (12 :: pr.1, pr.2))
        else if e = 114 then (parseStrBody rest2).map (fun pr => (13 :: pr.1, pr.2))
        else if e = 117 then
          match rest2 with
          | h1 :: h2 :: h3 :: h4 :: rest3 =>
            match hexVal h1, hexVal h2, hexVal h3, hexVal h4 with
            | some v1, some v2, some v3, some v4 =>
              (parseStrBody rest3).map
                (fun pr => ((v1 * 4096 + v2 * 256 + v3 * 16 + v4) :: pr.1, pr.2))
            | _, _, _, _ => none
          | _ => none
        else none
    else if c < 32 then none
    else (parseStrBody rest).map (fun pr => (c :: pr.1, pr.2))

def dropToken : List Nat → List Nat → Option (List Nat)
  | [], input => some input
  | _ :: _, [] => none
  | t :: ts, c :: cs => if c = t then dropToken ts cs else none

def jsonParseCode (input : List Nat) : Option CodeData := do
  let r1 ← dropToken [123, 34, 115, 34, 58, 34] input
  let (s, r2) ← parseStrBody r1
  let r3 ← dropToken [44, 34, 105, 34, 58, 34] r2
  let (i, r4) ← parseStrBody r3
  let r5 ← dropToken [44, 34, 99, 34, 58, 34] r4
  let (c, r6) ← parseStrBody r5
  let r7 ← dropToken [44, 34, 112, 34, 58, 34] r6
  let (p, r8) ← parseStrBody r7
  let r9 ← dropToken [44, 34, 104, 34, 58, 34] r8
  let (h, r10) ← parseStrBody r9
  let r11 ← dropToken [125] r10
  if r11 = [] then some ⟨s, i, c, p, h⟩ else none

theorem hexVal_hexDigit : ∀ n < 16, hexVal (hexDigit n) = some n := by decide

theorem parseStrBody_escape (s : List Nat) (rest : List Nat) :
    parseStrBody (escapeStr s ++ 34 :: rest) = some (s, rest) := by
  induction s with
  | nil =>
    rw [show escapeStr [] = [] from rfl, List.nil_append, parseStrBody.eq_def]
    norm_num
  | cons c cs ih =>
    show parseStrBody ((escapeChar c ++ escapeStr cs) ++ 34 :: rest) = _
    rw [List.append_assoc, escapeChar]
    by_cases h34 : c = 34
    · subst h34
      rw [if_pos rfl]
      simp only [List.cons_append, List.nil_append]
      rw [parseStrBody.eq_def]
      norm_num
      rw [ih]
    rw [if_neg h34]
    by_cases h92 : c = 92
    · subst h92
      rw [if_pos rfl]
      simp only [List.cons_append, List.nil_append]
      rw [parseStrBody.eq_def]
      norm_num
      rw [ih]
    rw [if_neg h92]
    by_cases h8 : c = 8
    · subst h8
      rw [if_pos rfl]
      simp only [List.cons_append, List.nil_append]
      rw [parseStrBody.eq_def]
      norm_num
      rw [ih]
    rw [if_neg h8]
    by_cases h9 : c = 9
    · subst h9
      rw [if_pos rfl]
      simp only [List.cons_append, List.nil_append]
      rw [parseStrBody.eq_def]
      norm_num
      rw [ih]
    rw [if_neg h9]
    by_cases h10 : c = 10
    · subst h10
      rw [if_pos rfl]
      simp only [List.cons_append, List.nil_append]
      rw [parseStrBody.eq_def]
      norm_num
      rw [ih]
    rw [if_neg h10]
    by_cases h12 : c = 12
    · subst h12
      rw [if_pos rfl]
      simp only [List.cons_append, List.nil_append]
      rw [parseStrBody.eq_def]
      norm_num
      rw [ih]
    rw [if_neg h12]
    by_cases h13 : c = 13
    · subst h13
      rw [if_pos rfl]
      simp only [List.cons_append, List.nil_append]
      rw [parseStrBody.eq_def]
      norm_num
      rw [ih]
    rw [if_neg h13]
    by_cases hctl : c < 32
    · rw [if_pos hctl]
      simp only [List.cons_append, List.nil_append]
      rw [parseStrBody.eq_def]
      norm_num
      rw [show hexVal 48 = some 0 from rfl,
        hexVal_hexDigit (c / 16) (by omega), hexVal_hexDigit (c % 16) (by omega)]
      show (parseStrBody (escapeStr cs ++ 34 :: rest)).map
          (fun pr => ((0 * 4096 + 0 * 256 + c / 16 * 16 + c % 16) :: pr.1, pr.2))
        = some (c :: cs, rest)
      rw [ih, Option.map_some']
      have hv : 0 * 4096 + 0 * 256 + c / 16 * 16 + c % 16 = c := by omega
      rw [hv]
    rw [if_neg hctl]
    simp only [List.cons_append, List.nil_append]
    rw [parseStrBody.eq_def]
    simp only [if_neg h34, if_neg h92, if_neg hctl]
    rw [ih]
    rfl

theorem dropToken_self (ts X : List Nat) : dropToken ts (ts ++ X) = some X := by
  induction ts with
  | nil => rfl
  | cons t ts ih => simp [dropToken, ih]

theorem jsonParseCode_stringify (d : CodeData) :
    jsonParseCode (jsonStringifyCode d) = some d := by
  simp [jsonParseCode, jsonStringifyCode, dropToken, parseStrBody_escape]

/-! ### Rendezvous codes (src/src/utils/uniqueCode.ts)

`generateUniqueCode` builds `{s, i, c, p, h}` (with JS truthiness defaults:
empty string for a missing ICE server / public key, the string `'67108864'`
when `chunkSize` is absent or the falsy 0) and base64url-encodes its JSON.
`parseUniqueCode` decodes, parses, and post-processes; its `try/catch`
(`Invalid code format`) is the `Option` failure.  `parseInt` and the JS
string-to-number coercion used by `data.c > 16777216` are modeled on decimal
digit strings — the only shape generated codes contain — and return `none`
(JS `NaN`) otherwise. -/

def natToDigits (n : Nat) : List Nat :=
  if _h : n < 10 then [48 + n]
  else natToDigits (n / 10) ++ [48 + n % 10]
termination_by n
decreasing_by omega

def digitsVal (s : List Nat) : Nat := s.foldl (fun a c => a * 10 + (c - 48)) 0

def isDigit (c : Nat) : Bool := decide (48 ≤ c) && decide (c ≤ 57)

def jsParseInt (s : List Nat) : Option Nat :=
  if s.takeWhile isDigit = [] then none else some (digitsVal (s.takeWhile isDigit))

def jsStringToNumber (s : List Nat) : Option Nat :=
  if s ≠ [] ∧ s.all isDigit then some (digitsVal s) else none

def jsGtNum (s : List Nat) (n : Nat) : Bool :=
  match jsStringToNumber s with
  | some v => decide (n < v)
  | none => false

structure GenOptions where
  iceServer : Option (List Nat)
  chunkSize : Option Nat
  publicKey : Option (List Nat)
  highPerformance : Bool
deriving DecidableEq

def codeDataOf (sdp : List Nat) (options : GenOptions) : CodeData :=
  { s := sdp
  , i := options.iceServer.getD []
  , c := match options.chunkSize with
         | some n => if n ≠ 0 then natToDigits n else [54, 55, 49, 48, 56, 56, 54, 52]
         | none => [54, 55, 49, 48, 56, 56, 54, 52]
  , p := options.publicKey.getD []
  , h := if options.highPerformance then [49] else [48] }

def generateUniqueCode (sdp : List Nat) (options : GenOptions) : Option (List Nat) :=
  base64urlEncode (jsonStringifyCode (codeDataOf sdp options))

structure ParsedCode where
  sdp : List Nat
  iceServer : Option (List Nat)
  chunkSize : Option Nat
  publicKey : Option (List Nat)
  highPerformance : Bool
deriving DecidableEq

def parseCore (d : CodeData) : ParsedCode :=
  { sdp := d.s
  , iceServer := if d.i = [] then none else some d.i
  , chunkSize := if d.c = [] then some 67108864 else jsParseInt d.c
  , publicKey := if d.p = [] then none else some d.p
  , highPerformance := (decide (d.h = [49])) || jsGtNum d.c 16777216 }

def parseUniqueCode (code : List Nat) : Option ParsedCode :=
  ((base64urlDecode code).bind jsonParseCode).map parseCore

/-- The composition the rendezvous round-trip claim is about. -/
def parseAfterGenerate (sdp : List Nat) (options : GenOptions) : Option ParsedCode :=
  (generateUniqueCode sdp options).bind parseUniqueCode

theorem natToDigits_spec (n : Nat) :
    natToDigits n ≠ [] ∧ (∀ c ∈ natToDigits n, 48 ≤ c ∧ c ≤ 57) ∧
      digitsVal (natToDigits n) = n := by
  induction n using natToDigits.induct with
  | case1 n h =>
    rw [natToDigits, dif_pos h]
    refine ⟨by simp, ?_, ?_⟩
    · intro c hc
      rcases List.mem_singleton.mp hc with rfl
      omega
    · show (0 * 10 + (48 + n - 48)) = n
      omega
  | case2 n h ih =>
    rw [natToDigits, dif_neg h]
    obtain ⟨hne, hdig, hval⟩ := ih
    refine ⟨by simp, ?_, ?_⟩
    · intro c hc
      rcases List.mem_append.mp hc with hc | hc
      · exact hdig c hc
      · rcases List.mem_singleton.mp hc with rfl
        omega
    · rw [digitsVal, List.foldl_append]
      rw [show (List.foldl (fun a c => a * 10 + (c - 48)) 0 (natToDigits (n / 10)))
        = digitsVal (natToDigits (n / 10)) from rfl, hval]
      show n / 10 * 10 + (48 + n % 10 - 48) = n
      omega

theorem takeWhile_isDigit_self (s : List Nat) (h : ∀ c ∈ s, isDigit c = true) :
    s.takeWhile isDigit = s := by
  induction s with
  | nil => rfl
  | cons c cs ih =>
    rw [List.takeWhile_cons, if_pos (h c (by simp))]
    rw [ih (fun x hx => h x (by simp [hx]))]

theorem jsParseInt_natToDigits (n : Nat) : jsParseInt (natToDigits n) = some n := by
  obtain ⟨hne, hdig, hval⟩ := natToDigits_spec n
  have hall : ∀ c ∈ natToDigits n, isDigit c = true := by
    intro c hc
    have := hdig c hc
    simp [isDigit]
    omega
  rw [jsParseInt, takeWhile_isDigit_self _ hall, if_neg hne, hval]

theorem jsGtNum_natToDigits (n m : Nat) :
    jsGtNum (natToDigits n) m = decide (m < n) := by
  obtain ⟨hne, hdig, hval⟩ := natToDigits_spec n
  have hall : (natToDigits n).all isDigit = true := by
    rw [List.all_eq_true]
    intro c hc
    have := hdig c hc
    simp [isDigit]
    omega
  rw [jsGtNum, jsStringToNumber, if_pos ⟨hne, hall⟩, hval]

theorem escapeChar_lt_256 (c x : Nat) (hc : c < 256) (hx : x ∈ escapeChar c) :
    x < 256 := by
  rw [escapeChar] at hx
  split_ifs at hx with h1 h2 h3 h4 h5 h6 h7 h8
  · simp at hx; omega
  · simp at hx; omega
  · simp at hx; omega
  · simp at hx; omega
  · simp at hx; omega
  · simp at hx; omega
  · simp at hx; omega
  · simp at hx
    have hd1 : hexDigit (c / 16) < 256 := by rw [hexDigit]; split_ifs <;> omega
    have hd2 : hexDigit (c % 16) < 256 := by rw [hexDigit]; split_ifs <;> omega
    omega
  · simp at hx; omega

theorem escapeStr_lt_256 (s : List Nat) (h : ∀ c ∈ s, c < 256) :
    ∀ x ∈ escapeStr s, x < 256 := by
  intro x hx
  rw [escapeStr] at hx
  obtain ⟨c, hc, hxc⟩ := List.mem_flatMap.mp hx
  exact escapeChar_lt_256 c x (h c hc) hxc

theorem jsonStringifyCode_lt_256 (d : CodeData)
    (hs : ∀ c ∈ d.s, c < 256) (hi : ∀ c ∈ d.i, c < 256)
    (hc : ∀ c ∈ d.c, c < 256) (hp : ∀ c ∈ d.p, c < 256)
    (hh : ∀ c ∈ d.h, c < 256) :
    ∀ x ∈ jsonStringifyCode d, x < 256 := by
  intro x hx
  rw [jsonStringifyCode] at hx
  simp only [List.mem_cons, List.mem_append, List.mem_singleton,
    List.not_mem_nil, or_false] at hx
  rcases hx with rfl|rfl|rfl|rfl|rfl|rfl|h'|rfl|rfl|rfl|rfl|rfl|rfl|rfl|h'|rfl|rfl|rfl|rfl|rfl|rfl|rfl|h'|rfl|rfl|rfl|rfl|rfl|rfl|rfl|h'|rfl|rfl|rfl|rfl|rfl|rfl|rfl|h'|rfl|rfl
  all_goals first
    | omega
    | exact escapeStr_lt_256 _ hs _ h'
    | exact escapeStr_lt_256 _ hi _ h'
    | exact escapeStr_lt_256 _ hc _ h'
    | exact escapeStr_lt_256 _ hp _ h'
    | exact escapeStr_lt_256 _ hh _ h'

theorem natToDigits_default : natToDigits 67108864 = [54, 55, 49, 48, 56, 56, 54, 52] := by
  simp [natToDigits]

/-- Round-trip of the rendezvous code, field by field: the parsed record
carries the generated SDP, ICE server and public key (provided they are not
the falsy empty string), the chunk size (default 67108864), and a
high-performance flag that is the OR of the generated flag with
`chunk size > 16777216`. -/
theorem parseAfterGenerate_spec (sdp : List Nat) (o : GenOptions)
    (hs : ∀ c ∈ sdp, c < 256)
    (hi : ∀ l, o.iceServer = some l → ((∀ c ∈ l, c < 256) ∧ l ≠ []))
    (hp : ∀ l, o.publicKey = some l → ((∀ c ∈ l, c < 256) ∧ l ≠ []))
    (hcs : o.chunkSize ≠ some 0) :
    parseAfterGenerate sdp o = some
      { sdp := sdp
      , iceServer := o.iceServer
      , chunkSize := some (o.chunkSize.getD 67108864)
      , publicKey := o.publicKey
      , highPerformance := o.highPerformance
          || decide (16777216 < o.chunkSize.getD 67108864) } := by
  have hcfield : (codeDataOf sdp o).c = natToDigits (o.chunkSize.getD 67108864) := by
    rcases hoc : o.chunkSize with _ | n
    · simp [codeDataOf, hoc, natToDigits_default]
    · have hn0 : n ≠ 0 := fun h0 => hcs (by rw [hoc, h0])
      simp [codeDataOf, hoc, hn0]
  have hchars : ∀ x ∈ jsonStringifyCode (codeDataOf sdp o), x < 256 := by
    apply jsonStringifyCode_lt_256
    · exact hs
    · rcases ho : o.iceServer with _ | l
      · intro c hcm
        simp [codeDataOf, ho] at hcm
      · intro c hcm
        exact (hi l ho).1 c (by simpa [codeDataOf, ho] using hcm)
    · intro c hcm
      rw [hcfield] at hcm
      have := (natToDigits_spec _).2.1 c hcm
      omega
    · rcases ho : o.publicKey with _ | l
      · intro c hcm
        simp [codeDataOf, ho] at hcm
      · intro c hcm
        exact (hp l ho).1 c (by simpa [codeDataOf, ho] using hcm)
    · intro c hcm
      cases hb : o.highPerformance <;> simp [codeDataOf, hb] at hcm <;> omega
  obtain ⟨code, henc⟩ : ∃ code,
      base64urlEncode (jsonStringifyCode (codeDataOf sdp o)) = some code := by
    rw [base64urlEncode, btoa,
      if_pos (by simpa [List.all_eq_true, decide_eq_true_iff] using hchars)]
    exact ⟨_, rfl⟩
  have hdec := base64url_roundtrip _ _ hchars henc
  rw [parseAfterGenerate, generateUniqueCode, henc, Option.some_bind,
    parseUniqueCode, hdec, Option.some_bind, jsonParseCode_stringify,
    Option.map_some']
  have hifield : (if (codeDataOf sdp o).i = [] then none
      else some ((codeDataOf sdp o).i)) = o.iceServer := by
    rcases ho : o.iceServer with _ | l
    · simp [codeDataOf, ho]
    · have := (hi l ho).2
      simp [codeDataOf, ho, this]
  have hpfield : (if (codeDataOf sdp o).p = [] then none
      else some ((codeDataOf sdp o).p)) = o.publicKey := by
    rcases ho : o.publicKey with _ | l
    · simp [codeDataOf, ho]
    · have := (hp l ho).2
      simp [codeDataOf, ho, this]
  have hhfield : decide ((codeDataOf sdp o).h = [49]) = o.highPerformance := by
    cases hb : o.highPerformance <;> simp [codeDataOf, hb]
  congr 1
  simp only [parseCore, ParsedCode.mk.injEq]
  refine ⟨rfl, hifield, ?_, hpfield, ?_⟩
  · rw [hcfield, if_neg (natToDigits_spec _).1, jsParseInt_natToDigits]
  · rw [hcfield, jsGtNum_natToDigits, hhfield]

/-! ### Claim theorems (cipher, chunking, framing, tiers, validation,
progress, parallelism) -/

/-- C1: the cipher round-trip fails beyond the chunking threshold.  With key
0, a 12-byte zero IV, plaintext `[0, 0]` and `chunkSize = 1`,
`encryptAesGcmOptimized` emits two independently-tagged AES-GCM chunk
ciphertexts after the IV, and `decryptAesGcmOptimized` — which decrypts the
remainder as one message — rejects the envelope instead of returning the
plaintext. -/
theorem claim_C1_chunked_roundtrip_fails :
    decryptAesGcmOptimized 0
      (encryptAesGcmOptimized 0 (List.replicate 12 0) [0, 0] 1) 1 = none := by
  have hch : chunksOf 1 [0, 0] = [[0], [0]] := by
    rw [chunksOf, dif_neg (by simp)]
    rw [chunksOf, dif_neg (by simp)]
    rw [chunksOf, dif_pos (by simp)]
    simp
  rw [encryptAesGcmOptimized, if_pos (by decide), hch]
  decide

/-- C2 counterexample: `createOptimizedChunks` raises the requested chunk
size to at least 16 MiB, so with `chunkSize = 1` the two-byte input comes
back as a single chunk of length 2 > 1, violating the claimed
`length ≤ chunkSize` bound. -/
theorem claim_C2_counterexample :
    ∃ c ∈ createOptimizedChunks [0, 0] 1, 1 < c.length := by
  refine ⟨[0, 0], ?_, by norm_num⟩
  rw [createOptimizedChunks, max_eq_right (by norm_num), chunksOf,
    dif_neg (by simp)]
  rw [List.take_of_length_le (by norm_num)]
  exact List.mem_cons_self _ _

/-- C2 (amended): `createOptimizedChunks data chunkSize` covers the input
exactly once in order — its in-order concatenation is `data` — and every
chunk has length at most `max chunkSize 16777216` (the effective step after
the source's 16 MiB floor), not at most `chunkSize`. -/
theorem claim_C2_amended (data : List Nat) (chunkSize : Nat) :
    (createOptimizedChunks data chunkSize).flatten = data ∧
    ∀ c ∈ createOptimizedChunks data chunkSize,
      c.length ≤ max chunkSize 16777216 := by
  exact ⟨chunksOf_join _ _ (by omega), chunksOf_length_le _ _⟩

theorem claim_C2_amended_witness :
    (createOptimizedChunks [1, 2, 3] 2).flatten = [1, 2, 3] ∧
    ([1, 2, 3] : List Nat).length ≤ max 2 16777216 := by
  have hmem : [1, 2, 3] ∈ createOptimizedChunks [1, 2, 3] 2 := by
    rw [createOptimizedChunks, max_eq_right (by norm_num), chunksOf,
      dif_neg (by simp)]
    rw [List.take_of_length_le (by norm_num)]
    exact List.mem_cons_self _ _
  exact ⟨(claim_C2_amended [1, 2, 3] 2).1, (claim_C2_amended [1, 2, 3] 2).2 _ hmem⟩

/-- C3 counterexample: the frame stores `array1.length` through a 2-byte
`Uint16Array`, i.e. modulo 2^16.  For `A` of length 65536 and `B = []` the
prefix reads back as 0, so unpacking returns `([], A)`, not `(A, [])`. -/
theorem claim_C3_counterexample :
    splitUint8Array (concatUint8Arrays (List.replicate 65536 0) [])
      ≠ (List.replicate 65536 0, ([] : List Nat)) := by
  have h1 : concatUint8Arrays (List.replicate 65536 (0 : Nat)) []
      = 0 :: 0 :: (List.replicate 65536 0 ++ []) := by
    rw [concatUint8Arrays]
    norm_num
  have h2 : splitUint8Array (0 :: 0 :: (List.replicate 65536 (0 : Nat) ++ []))
      = ([], List.replicate 65536 0 ++ []) := by
    rw [splitUint8Array]
    simp only [List.getD_cons_zero, List.getD_cons_succ, List.drop_succ_cons,
      List.drop_zero]
    rw [show (0 : Nat) + 256 * 0 = 0 from rfl, List.take_zero, List.drop_zero]
  rw [h1, h2]
  intro heq
  have hfst := congrArg Prod.fst heq
  have hlen := congrArg List.length hfst
  simp only [List.length_nil, List.length_append, List.length_replicate] at hlen
  omega

/-- C3 (amended): the dual-buffer frame round-trips whenever the first
buffer is shorter than 2^16 bytes (the capacity of the 2-byte little-endian
length prefix); `splitUint8Array (concatUint8Arrays A B) = (A, B)` then
holds for every `B`. -/
theorem claim_C3_amended (A B : List Nat) (hA : A.length < 65536) :
    splitUint8Array (concatUint8Arrays A B) = (A, B) := by
  rw [concatUint8Arrays, splitUint8Array]
  simp only [List.getD_cons_zero, List.getD_cons_succ, List.drop_succ_cons,
    List.drop_zero]
  have hidx : A.length % 256 + 256 * (A.length / 256 % 256) = A.length := by
    omega
  rw [hidx, List.take_left, List.drop_left]

theorem claim_C3_amended_witness :
    splitUint8Array (concatUint8Arrays [7] [8, 9]) = ([7], [8, 9]) :=
  claim_C3_amended [7] [8, 9] (by norm_num)

/-- C4 counterexample: on input `[5, 0, 1]` the declared first-part length is
5 but only one byte follows the prefix; `splitUint8Array` does not fail — JS
`subarray` clamps — and returns the clamped pair `([1], [])`. -/
theorem claim_C4_counterexample : splitUint8Array [5, 0, 1] = ([1], []) := by
  rw [splitUint8Array]
  simp

/-- C4 (amended): `splitUint8Array` never fails; whenever the declared
length exceeds the bytes present after the 2-byte prefix it returns all
remaining bytes as the first part and an empty second part. -/
theorem claim_C4_amended (b0 b1 : Nat) (rest : List Nat)
    (h : rest.length < b0 + 256 * b1) :
    splitUint8Array (b0 :: b1 :: rest) = (rest, []) := by
  rw [splitUint8Array]
  simp only [List.getD_cons_zero, List.getD_cons_succ, List.drop_succ_cons,
    List.drop_zero]
  rw [List.take_of_length_le (by omega), List.drop_eq_nil_of_le (by omega)]

theorem claim_C4_amended_witness : splitUint8Array [3, 0, 9] = ([9], []) :=
  claim_C4_amended 3 0 [9] (by norm_num)

/-- C5: `calculateOptimalChunkSize` realizes exactly the four documented
tiers (128 MiB above 10 GiB, 64 MiB above 1 GiB, 16 MiB above 100 MiB,
otherwise 4 MiB, with the tier boundaries themselves falling in the lower
tier) and is monotonically non-decreasing. -/
theorem claim_C5_tiers_monotone (s t : Nat) (hst : s ≤ t) :
    calculateOptimalChunkSize s ≤ calculateOptimalChunkSize t ∧
    (10737418240 < s → calculateOptimalChunkSize s = 134217728) ∧
    (1073741824 < s → s ≤ 10737418240 → calculateOptimalChunkSize s = 67108864) ∧
    (104857600 < s → s ≤ 1073741824 → calculateOptimalChunkSize s = 16777216) ∧
    (s ≤ 104857600 → calculateOptimalChunkSize s = 4194304) := by
  unfold calculateOptimalChunkSize
  refine ⟨?_, ?_, ?_, ?_, ?_⟩ <;> split_ifs <;> omega

theorem claim_C5_witness :
    calculateOptimalChunkSize 104857600 = 4194304 ∧
    calculateOptimalChunkSize 104857600 ≤ calculateOptimalChunkSize 10737418241 := by
  have h := claim_C5_tiers_monotone 104857600 10737418241 (by norm_num)
  exact ⟨h.2.2.2.2 (le_refl _), h.1⟩

/-- C7 counterexample: with a configured maximum size of 0 and a declared
size of 1 (which exceeds it), `validateFileMetadata` returns no error,
because `maxSize && ...` is falsy for `maxSize = 0` in the source. -/
theorem claim_C7_counterexample :
    validateFileMetadata ⟨[], 1⟩ (some 0) = none := rfl

/-- C7 (amended): for every positive configured maximum `n`,
`validateFileMetadata` returns no error exactly when the declared size is
within `n` (so it errors exactly when the size exceeds `n`); with no
configured maximum — or the falsy maximum 0 — it never errors. -/
theorem claim_C7_amended (m : MetaData) (n : Nat) (hn : 1 ≤ n) :
    (validateFileMetadata m (some n) = none ↔ m.size ≤ n) ∧
    validateFileMetadata m none = none := by
  refine ⟨?_, rfl⟩
  rw [validateFileMetadata]
  by_cases hgt : n < m.size
  · rw [if_pos ⟨by omega, hgt⟩]
    simp
    omega
  · rw [if_neg (fun hcon => hgt hcon.2)]
    simp
    omega

theorem claim_C7_amended_witness :
    ¬ validateFileMetadata ⟨[], 5⟩ (some 3) = none := by
  intro hnone
  have h := ((claim_C7_amended ⟨[], 5⟩ 3 (by norm_num)).1).mp hnone
  have h5 : (⟨[], 5⟩ : MetaData).size = 5 := rfl
  omega

/-- C8: over a whole transfer the percentages handed to `onProgress` are
strictly increasing (hence reported at most once per whole-percent advance,
non-decreasing, and each invocation at least one above the previous), all
lie within 100, and — when there is any data — the final report is exactly
100.  Stated for positive chunk sizes, since the source loop never
terminates (and never reports) for `chunkSize = 0`. -/
theorem claim_C8_progress_throttling (fileSize chunkSize : Nat)
    (hcs : 0 < chunkSize) :
    (progressiveFileTransfer fileSize chunkSize).Chain' (· < ·) ∧
    (∀ x ∈ progressiveFileTransfer fileSize chunkSize, x ≤ 100) ∧
    (0 < fileSize →
      (progressiveFileTransfer fileSize chunkSize).getLast? = some 100) := by
  rw [progressiveFileTransfer]
  by_cases hfs : 0 < fileSize
  · obtain ⟨hall, hchain, hlast⟩ :=
      progressReports_props fileSize chunkSize hcs 0 0 (by norm_num)
    exact ⟨hchain, fun x hx => (hall x hx).2, fun _ => hlast hfs⟩
  · rw [progressReports_stop _ _ _ _ (by omega)]
    exact ⟨by simp, by simp, by omega⟩

theorem claim_C8_witness :
    (progressiveFileTransfer 250 100).getLast? = some 100 :=
  (claim_C8_progress_throttling 250 100 (by norm_num)).2.2 (by norm_num)

/-- C9: with any concurrency factor at least 1, `processChunksParallel`
returns exactly one result per input chunk, and the i-th result is the
processor applied to the i-th chunk — batch admission preserves the
original sequence order. -/
theorem claim_C9_order {β : Type} (chunks : List (List Nat))
    (processor : List Nat → β) (concurrency : Nat) (hc : 1 ≤ concurrency) :
    (processChunksParallel chunks processor concurrency).length = chunks.length ∧
    ∀ i (h1 : i < (processChunksParallel chunks processor concurrency).length)
      (h2 : i < chunks.length),
      (processChunksParallel chunks processor concurrency).get ⟨i, h1⟩
        = processor (chunks.get ⟨i, h2⟩) := by
  have hmap := processChunksParallel_eq_map chunks processor concurrency hc
  constructor
  · rw [hmap]; simp
  · intro i h1 h2
    rw [List.get_of_eq hmap ⟨i, h1⟩]
    simp only [List.get_eq_getElem, List.getElem_map]

theorem claim_C9_witness :
    (processChunksParallel [[1], [2, 3]] (fun l => List.length l) 1).length
      = ([[1], [2, 3]] : List (List Nat)).length :=
  (claim_C9_order [[1], [2, 3]] (fun l => List.length l) 1 (by norm_num)).1

/-- C6 counterexample: a code generated for SDP `"a"` with every option left
out (so `highPerformance` is `false` and the chunk size falls back to the
default `'67108864'`) parses back with `highPerformance = true`: the parser's
`data.h === '1' || data.c > 16777216` coerces the decimal string and the
default exceeds 16 MiB, so the original flag is not recovered. -/
theorem claim_C6_counterexample :
    parseAfterGenerate [97] ⟨none, none, none, false⟩
      = some ⟨[97], none, some 67108864, none, true⟩ := by
  have h := parseAfterGenerate_spec [97] ⟨none, none, none, false⟩
    (by decide)
    (by intro l hl; cases hl)
    (by intro l hl; cases hl)
    (by intro hl; cases hl)
  rw [h]
  rfl

/-- C6 (amended): for every SDP (of Latin-1 code units, the domain `btoa`
accepts) and options whose ICE server and public key are not the falsy empty
string and whose chunk size is not the falsy 0, parsing the generated code
recovers the SDP, ICE server, public key, and chunk size (as a number,
defaulting to 67108864 when unspecified); the high-performance flag is
recovered as the OR of the original flag with `chunk size > 16777216`, not
as the original flag itself. -/
theorem claim_C6_amended (sdp : List Nat) (o : GenOptions)
    (hs : ∀ c ∈ sdp, c < 256)
    (hi : ∀ l, o.iceServer = some l → ((∀ c ∈ l, c < 256) ∧ l ≠ []))
    (hp : ∀ l, o.publicKey = some l → ((∀ c ∈ l, c < 256) ∧ l ≠ []))
    (hcs : o.chunkSize ≠ some 0) :
    parseAfterGenerate sdp o = some
      { sdp := sdp
      , iceServer := o.iceServer
      , chunkSize := some (o.chunkSize.getD 67108864)
      , publicKey := o.publicKey
      , highPerformance := o.highPerformance
          || decide (16777216 < o.chunkSize.getD 67108864) } :=
  parseAfterGenerate_spec sdp o hs hi hp hcs

theorem claim_C6_amended_witness :
    parseAfterGenerate [104, 105] ⟨some [115], some 1000, some [112], true⟩
      = some ⟨[104, 105], some [115], some 1000, some [112], true⟩ := by
  have h := claim_C6_amended [104, 105] ⟨some [115], some 1000, some [112], true⟩
    (by decide)
    (by intro l hl; rcases Option.some.inj hl with rfl; exact ⟨by decide, by decide⟩)
    (by intro l hl; rcases Option.some.inj hl with rfl; exact ⟨by decide, by decide⟩)
    (by intro hl; simp at hl)
  rw [h]
  rfl

/-- C10: at the decoded-data stage of `parseUniqueCode`, whenever the `c`
field is a decimal digit string (the only shape generated codes produce),
the reported `highPerformance` is true iff `h = "1"` or `c` numerically
exceeds 16777216; consequently a code generated with `highPerformance`
false is parsed as high-performance exactly when its (possibly defaulted)
chunk size exceeds 16 MiB — in particular always for the default 67108864. -/
theorem claim_C10_highperf_iff (d : CodeData) (sdp : List Nat) (o : GenOptions)
    (hdigits : ∀ c ∈ d.c, isDigit c = true)
    (hs : ∀ c ∈ sdp, c < 256)
    (hi : ∀ l, o.iceServer = some l → ((∀ c ∈ l, c < 256) ∧ l ≠ []))
    (hp : ∀ l, o.publicKey = some l → ((∀ c ∈ l, c < 256) ∧ l ≠ []))
    (hcs : o.chunkSize ≠ some 0)
    (hflag : o.highPerformance = false) :
    ((parseCore d).highPerformance = true ↔
      (d.h = [49] ∨ (d.c ≠ [] ∧ 16777216 < digitsVal d.c))) ∧
    (parseAfterGenerate sdp o).map (fun p => p.highPerformance)
      = some (decide (16777216 < o.chunkSize.getD 67108864)) := by
  constructor
  · show (decide (d.h = [49]) || jsGtNum d.c 16777216) = true ↔ _
    rw [jsGtNum, jsStringToNumber]
    by_cases hemp : d.c = []
    · rw [if_neg (by simp [hemp])]
      simp [hemp]
    · rw [if_pos ⟨hemp, by rw [List.all_eq_true]; exact hdigits⟩]
      simp [hemp]
  · rw [parseAfterGenerate_spec sdp o hs hi hp hcs, Option.map_some', hflag]
    simp

theorem claim_C10_witness :
    ((parseCore ⟨[], [], [53, 48], [], [48]⟩).highPerformance = true ↔
      (([48] : List Nat) = [49] ∨
        (([53, 48] : List Nat) ≠ [] ∧ 16777216 < digitsVal [53, 48]))) ∧
    (parseAfterGenerate [98] ⟨none, none, none, false⟩).map
        (fun p => p.highPerformance)
      = some (decide (16777216 < (none : Option Nat).getD 67108864)) :=
  claim_C10_highperf_iff ⟨[], [], [53, 48], [], [48]⟩ [98] ⟨none, none, none, false⟩
    (by decide) (by decide)
    (by intro l hl; cases hl)
    (by intro l hl; cases hl)
    (by intro hl; cases hl)
    rfl

end SpeedShare
